import Mathlib

/-!
Verification development for the nitro-image processing library.

Shallow embedding of the library in Lean 4:

* Python floats used in geometry computations are modelled as exact
  rationals (image dimensions are small integers, and every float
  operation the relevant code paths perform on them is exact);
  Python round (banker rounding, half to even) is modelled by pyRound,
  Python int() truncation by pyTrunc, Python floor division by Int.fdiv.
* The external image codec (PIL) is kept abstract: resampling functions
  and byte encoders appear as explicit function parameters, as the spec
  treats decode/encode and resampling kernels as external collaborators.
* Encoded byte strings are modelled as List Nat; a pixel buffer is a
  structure of dimensions and a sample map.
* Python dicts are modelled as insertion-ordered association lists
  (pyInsert keeps the position of an existing key, appends a new one).
* Mutation of PIL buffers (for the no-mutation claim) is modelled with
  an explicit heap: a list of buffer values addressed by index.
-/

namespace NitroImg

/-! ### Python arithmetic helpers -/

/-- Python round on an exact rational: round half to even. -/
def pyRound (q : ℚ) : ℤ :=
  let f := ⌊q⌋
  let r := q - f
  if r < 1/2 then f
  else if 1/2 < r then f + 1
  else if f % 2 = 0 then f else f + 1

/-- Python int() on an exact rational: truncation toward zero. -/
def pyTrunc (q : ℚ) : ℤ :=
  if 0 ≤ q then ⌊q⌋ else ⌈q⌉

theorem pyRound_intCast (n : ℤ) : pyRound (n : ℚ) = n := by
  unfold pyRound
  norm_num

theorem pyTrunc_eq_floor_of_nonneg (q : ℚ) (h : 0 ≤ q) : pyTrunc q = ⌊q⌋ := by
  unfold pyTrunc
  simp [h]

theorem pyRound_natCast (n : ℕ) : pyRound ((n : ℕ) : ℚ) = (n : ℤ) := by
  have hc : ((n : ℕ) : ℚ) = (((n : ℤ) : ℤ) : ℚ) := by push_cast; ring
  rw [hc, pyRound_intCast]

theorem le_pyRound (q : ℚ) (n : ℤ) (h : (n : ℚ) ≤ q) : n ≤ pyRound q := by
  have hf : n ≤ ⌊q⌋ := Int.le_floor.mpr h
  simp only [pyRound]
  split_ifs <;> omega

/-! ### Output formats (src/nitro_img/types.py) -/

/-- Format enumeration from types.py. -/
inductive Format where
  | JPEG | PNG | WEBP | GIF | BMP | TIFF
deriving DecidableEq, Repr

/-! ### Pipeline engine (src/nitro_img/pipeline.py)

An Operation is a tagged transform.  A transform that raises is
modelled as returning an error value carrying the exception text. -/

/-- Operation record from pipeline.py: a kind tag and a transform. -/
structure Operation (β : Type) where
  name : String
  fn : β → Except String β

/-- ImageProcessingError from errors.py: message text plus the chained
underlying cause (the `from e` clause). -/
structure ImageProcessingError where
  message : String
  cause : String
deriving DecidableEq, Repr

/-- Pipeline.execute from pipeline.py: apply each queued operation in
order, threading the buffer; a raising transform is caught at the
single-operation boundary and re-raised as ImageProcessingError naming
the operation and chaining the cause. -/
def Pipeline.execute {β : Type} : List (Operation β) → β → Except ImageProcessingError β
  | [], img => Except.ok img
  | op :: rest, img =>
    match op.fn img with
    | Except.ok next => Pipeline.execute rest next
    | Except.error e =>
        Except.error ⟨"Operation " ++ op.name ++ " failed: " ++ e, e⟩

theorem Pipeline.execute_append {β : Type} (l₁ l₂ : List (Operation β)) (b : β) :
    Pipeline.execute (l₁ ++ l₂) b =
      match Pipeline.execute l₁ b with
      | Except.ok b₁ => Pipeline.execute l₂ b₁
      | Except.error e => Except.error e := by
  induction l₁ generalizing b with
  | nil => simp [Pipeline.execute]
  | cons op rest ih =>
      simp only [List.cons_append, Pipeline.execute]
      cases op.fn b with
      | ok next => exact ih next
      | error e => rfl

/-- C1: if the operations before `op` execute successfully from `b`
reaching buffer b₁, and the transform of `op` raises with cause `c`,
then executing the whole queue from `b` stops at `op` and raises an
ImageProcessingError whose message names the failed operation and whose
cause is the underlying exception; no buffer is returned, and the
result does not depend on the operations queued after the failed one
(they are never applied). -/
theorem execute_raises_at_failing_op {β : Type}
    (pre post : List (Operation β)) (op : Operation β) (b b₁ : β) (c : String)
    (hpre : Pipeline.execute pre b = Except.ok b₁)
    (hfail : op.fn b₁ = Except.error c) :
    Pipeline.execute (pre ++ op :: post) b
      = Except.error ⟨"Operation " ++ op.name ++ " failed: " ++ c, c⟩ ∧
    ∀ post₂ : List (Operation β),
      Pipeline.execute (pre ++ op :: post₂) b
        = Pipeline.execute (pre ++ op :: post) b := by
  have key : ∀ post₂ : List (Operation β),
      Pipeline.execute (pre ++ op :: post₂) b
        = Except.error ⟨"Operation " ++ op.name ++ " failed: " ++ c, c⟩ := by
    intro post₂
    rw [Pipeline.execute_append, hpre]
    simp only [Pipeline.execute, hfail]
  exact ⟨key post, fun post₂ => by rw [key post₂, key post]⟩

/-- Witness for C1 at a concrete pipeline over natural-number buffers:
the error is reached and does not depend on the trailing operations. -/
theorem execute_raises_at_failing_op_witness :
    Pipeline.execute
        ([⟨"resize", fun n => Except.ok (n + 1)⟩] ++
          (⟨"crop", fun _ => Except.error "boom"⟩ : Operation ℕ) :: [⟨"rotate", fun n => Except.ok n⟩]) 0
      = Except.error ⟨"Operation crop failed: boom", "boom"⟩ ∧
    Pipeline.execute
        ([⟨"resize", fun n => Except.ok (n + 1)⟩] ++
          (⟨"crop", fun _ => Except.error "boom"⟩ : Operation ℕ) :: []) 0
      = Pipeline.execute
          ([⟨"resize", fun n => Except.ok (n + 1)⟩] ++
            (⟨"crop", fun _ => Except.error "boom"⟩ : Operation ℕ) :: [⟨"rotate", fun n => Except.ok n⟩]) 0 := by
  have h := execute_raises_at_failing_op
    [⟨"resize", fun n => Except.ok (n + 1)⟩]
    [⟨"rotate", fun n => Except.ok n⟩]
    ⟨"crop", fun _ => Except.error "boom"⟩ 0 1 "boom" (by rfl) (by rfl)
  exact ⟨h.1, h.2 []⟩

/-! ### Optimizer (src/nitro_img/output/optimize.py)

The external codec is abstracted as a function from an optional quality
to the encoded byte string for the fixed buffer and format at hand. -/

/-- Encoded byte strings. -/
abbrev Bytes := List ℕ

theorem fdiv_two_bounds {lo hi : ℤ} (h : lo ≤ hi) :
    lo ≤ (lo + hi).fdiv 2 ∧ (lo + hi).fdiv 2 ≤ hi := by
  rw [Int.fdiv_eq_ediv _ (by norm_num)]
  omega

/-- The while-loop of optimize from optimize.py: binary search on the
quality interval, remembering the best (largest) quality whose encoding
fits the byte target; mid is computed with Python floor division. -/
def optLoop (enc : Option ℤ → Bytes) (target : ℤ) (lo hi : ℤ)
    (best : Option (Bytes × ℤ)) : Option (Bytes × ℤ) :=
  if h : lo ≤ hi then
    let mid := (lo + hi).fdiv 2
    let data := enc (some mid)
    if (data.length : ℤ) ≤ target then
      optLoop enc target (mid + 1) hi (some (data, mid))
    else
      optLoop enc target lo (mid - 1) best
  else best
termination_by (hi + 1 - lo).toNat
decreasing_by
  · have := fdiv_two_bounds h
    omega
  · have := fdiv_two_bounds h
    omega

/-- Quality finally reported by optimize given the loop result: the
recorded best quality, or min_quality when nothing fits. -/
def optQuality (min_quality : ℤ) : Option (Bytes × ℤ) → ℤ
  | some dq => dq.2
  | none => min_quality

/-- optimize from optimize.py.  For formats without a quality knob the
buffer is encoded once; otherwise the maximal quality is tried first
and a binary search on quality follows, falling back to the
min_quality encoding when no quality fits the target. -/
def optimize (fmt : Format) (enc : Option ℤ → Bytes)
    (target_kb min_quality max_quality : ℤ) : Bytes × ℤ :=
  if fmt ≠ Format.JPEG ∧ fmt ≠ Format.WEBP then
    (enc none, 0)
  else
    let target_bytes := target_kb * 1024
    let hi := max_quality
    let data := enc (some hi)
    if (data.length : ℤ) ≤ target_bytes then
      (data, hi)
    else
      match optLoop enc target_bytes min_quality hi none with
      | some dq => dq
      | none => (enc (some min_quality), min_quality)

theorem optLoop_good (enc : Option ℤ → Bytes) (target : ℤ) :
    ∀ (n : ℕ) (lo hi : ℤ) (best : Option (Bytes × ℤ)),
      (hi + 1 - lo).toNat = n →
      (∀ d q, best = some (d, q) → d = enc (some q) ∧ (d.length : ℤ) ≤ target) →
      ∀ d q, optLoop enc target lo hi best = some (d, q) →
        d = enc (some q) ∧ (d.length : ℤ) ≤ target := by
  intro n
  induction n using Nat.strong_induction_on with
  | _ n ih =>
    intro lo hi best hn hbest d q hout
    rw [optLoop] at hout
    by_cases hlh : lo ≤ hi
    · obtain ⟨hm1, hm2⟩ := fdiv_two_bounds hlh
      simp only [dif_pos hlh] at hout
      by_cases hfit : (((enc (some ((lo + hi).fdiv 2))).length : ℤ) ≤ target)
      · rw [if_pos hfit] at hout
        refine ih ((hi + 1 - ((lo + hi).fdiv 2 + 1)).toNat) (by omega) _ hi _ rfl ?_ d q hout
        intro d' q' h'
        obtain ⟨h1, h2⟩ := Prod.mk.injEq .. ▸ Option.some.injEq .. ▸ h'
        constructor
        · rw [← h1, ← h2]
        · rw [← h1]; exact hfit
      · rw [if_neg hfit] at hout
        exact ih ((((lo + hi).fdiv 2 - 1) + 1 - lo).toNat) (by omega) _ _ _ rfl hbest d q hout
    · simp only [dif_neg hlh] at hout
      exact hbest d q hout

theorem optLoop_some (enc : Option ℤ → Bytes) (target min_quality : ℤ)
    (hmin : ((enc (some min_quality)).length : ℤ) ≤ target) :
    ∀ (n : ℕ) (lo hi : ℤ) (best : Option (Bytes × ℤ)),
      (hi + 1 - lo).toNat = n →
      min_quality ≤ lo →
      (best = none → lo = min_quality ∧ lo ≤ hi) →
      optLoop enc target lo hi best ≠ none := by
  intro n
  induction n using Nat.strong_induction_on with
  | _ n ih =>
    intro lo hi best hn hlo hinv
    rw [optLoop]
    by_cases hlh : lo ≤ hi
    · obtain ⟨hm1, hm2⟩ := fdiv_two_bounds hlh
      simp only [dif_pos hlh]
      by_cases hfit : (((enc (some ((lo + hi).fdiv 2))).length : ℤ) ≤ target)
      · rw [if_pos hfit]
        refine ih ((hi + 1 - ((lo + hi).fdiv 2 + 1)).toNat) (by omega) _ hi _ rfl (by omega) ?_
        intro h
        exact absurd h (Option.some_ne_none _)
      · rw [if_neg hfit]
        have hne : (lo + hi).fdiv 2 ≠ min_quality := by
          intro he
          rw [he] at hfit
          exact hfit hmin
        refine ih ((((lo + hi).fdiv 2 - 1) + 1 - lo).toNat) (by omega) lo _ best rfl hlo ?_
        intro hb
        obtain ⟨h1, h2⟩ := hinv hb
        omega
    · simp only [dif_neg hlh]
      intro hb
      obtain ⟨h1, h2⟩ := hinv hb
      omega

theorem optLoop_le (enc : Option ℤ → Bytes) (target min_quality : ℤ) :
    ∀ (n : ℕ) (lo hi : ℤ) (best : Option (Bytes × ℤ)),
      (hi + 1 - lo).toNat = n →
      optQuality min_quality (optLoop enc target lo hi best)
        ≤ max hi (optQuality min_quality best) := by
  intro n
  induction n using Nat.strong_induction_on with
  | _ n ih =>
    intro lo hi best hn
    rw [optLoop]
    by_cases hlh : lo ≤ hi
    · obtain ⟨hm1, hm2⟩ := fdiv_two_bounds hlh
      simp only [dif_pos hlh]
      by_cases hfit : (((enc (some ((lo + hi).fdiv 2))).length : ℤ) ≤ target)
      · rw [if_pos hfit]
        have := ih ((hi + 1 - ((lo + hi).fdiv 2 + 1)).toNat) (by omega)
          ((lo + hi).fdiv 2 + 1) hi (some (enc (some ((lo + hi).fdiv 2)), (lo + hi).fdiv 2)) rfl
        simp only [optQuality] at this ⊢
        omega
      · rw [if_neg hfit]
        have := ih ((((lo + hi).fdiv 2 - 1) + 1 - lo).toNat) (by omega)
          lo ((lo + hi).fdiv 2 - 1) best rfl
        omega
    · simp only [dif_neg hlh]
      exact le_max_right _ _

theorem optLoop_ge (enc : Option ℤ → Bytes) (target min_quality : ℤ) :
    ∀ (n : ℕ) (lo hi : ℤ) (d : Bytes) (q : ℤ),
      (hi + 1 - lo).toNat = n →
      q < lo →
      q ≤ optQuality min_quality (optLoop enc target lo hi (some (d, q))) := by
  intro n
  induction n using Nat.strong_induction_on with
  | _ n ih =>
    intro lo hi d q hn hq
    rw [optLoop]
    by_cases hlh : lo ≤ hi
    · obtain ⟨hm1, hm2⟩ := fdiv_two_bounds hlh
      simp only [dif_pos hlh]
      by_cases hfit : (((enc (some ((lo + hi).fdiv 2))).length : ℤ) ≤ target)
      · rw [if_pos hfit]
        have := ih ((hi + 1 - ((lo + hi).fdiv 2 + 1)).toNat) (by omega)
          ((lo + hi).fdiv 2 + 1) hi (enc (some ((lo + hi).fdiv 2))) ((lo + hi).fdiv 2) rfl (by omega)
        omega
      · rw [if_neg hfit]
        exact ih ((((lo + hi).fdiv 2 - 1) + 1 - lo).toNat) (by omega) lo _ d q rfl hq
    · simp only [dif_neg hlh, optQuality]
      exact le_refl q

theorem optLoop_mono (enc : Option ℤ → Bytes) (tA tB min_quality : ℤ) (hT : tB ≤ tA) :
    ∀ (n : ℕ) (lo hi : ℤ) (best : Option (Bytes × ℤ)),
      (hi + 1 - lo).toNat = n →
      min_quality ≤ lo →
      (∀ d q, best = some (d, q) → q < lo) →
      optQuality min_quality (optLoop enc tB lo hi best)
        ≤ optQuality min_quality (optLoop enc tA lo hi best) := by
  intro n
  induction n using Nat.strong_induction_on with
  | _ n ih =>
    intro lo hi best hn hlo hbest
    rw [optLoop, optLoop]
    by_cases hlh : lo ≤ hi
    · obtain ⟨hm1, hm2⟩ := fdiv_two_bounds hlh
      simp only [dif_pos hlh]
      by_cases hfitB : (((enc (some ((lo + hi).fdiv 2))).length : ℤ) ≤ tB)
      · have hfitA : (((enc (some ((lo + hi).fdiv 2))).length : ℤ) ≤ tA) := le_trans hfitB hT
        rw [if_pos hfitB, if_pos hfitA]
        refine ih ((hi + 1 - ((lo + hi).fdiv 2 + 1)).toNat) (by omega) _ hi _ rfl (by omega) ?_
        intro d q h
        obtain ⟨h1, h2⟩ := Prod.mk.injEq .. ▸ Option.some.injEq .. ▸ h
        omega
      · rw [if_neg hfitB]
        by_cases hfitA : (((enc (some ((lo + hi).fdiv 2))).length : ℤ) ≤ tA)
        · rw [if_pos hfitA]
          have hA := optLoop_ge enc tA min_quality
            ((hi + 1 - ((lo + hi).fdiv 2 + 1)).toNat) ((lo + hi).fdiv 2 + 1) hi
            (enc (some ((lo + hi).fdiv 2))) ((lo + hi).fdiv 2) rfl (by omega)
          have hB := optLoop_le enc tB min_quality
            ((((lo + hi).fdiv 2 - 1) + 1 - lo).toNat) lo ((lo + hi).fdiv 2 - 1) best rfl
          have hq : optQuality min_quality best ≤ (lo + hi).fdiv 2 := by
            cases best with
            | none => simpa [optQuality] using by omega
            | some dq =>
                have := hbest dq.1 dq.2 rfl
                simp only [optQuality]
                omega
          omega
        · rw [if_neg hfitA]
          exact ih ((((lo + hi).fdiv 2 - 1) + 1 - lo).toNat) (by omega) lo _ best rfl hlo hbest
    · simp only [dif_neg hlh]
      exact le_refl _

/-- C3: for a quality-capable format, whenever the encoding at
min_quality already fits the byte budget target_kb * 1024 and the
quality bounds are ordered, optimize returns bytes within the budget,
and the returned bytes are exactly the encoding at the returned
quality. -/
theorem optimize_fits (fmt : Format) (enc : Option ℤ → Bytes)
    (target_kb min_quality max_quality : ℤ)
    (hfmt : fmt = Format.JPEG ∨ fmt = Format.WEBP)
    (hq : min_quality ≤ max_quality)
    (hmin : ((enc (some min_quality)).length : ℤ) ≤ target_kb * 1024) :
    ((optimize fmt enc target_kb min_quality max_quality).1.length : ℤ) ≤ target_kb * 1024 ∧
    (optimize fmt enc target_kb min_quality max_quality).1
      = enc (some (optimize fmt enc target_kb min_quality max_quality).2) := by
  have hcond : ¬(fmt ≠ Format.JPEG ∧ fmt ≠ Format.WEBP) := by
    rcases hfmt with h | h <;> simp [h]
  unfold optimize
  rw [if_neg hcond]
  by_cases hmax : (((enc (some max_quality)).length : ℤ) ≤ target_kb * 1024)
  · simp only [if_pos hmax]
    exact ⟨hmax, by trivial⟩
  · simp only [if_neg hmax]
    have hsome := optLoop_some enc (target_kb * 1024) min_quality hmin
      ((max_quality + 1 - min_quality).toNat) min_quality max_quality none rfl
      (le_refl _) (fun _ => ⟨rfl, hq⟩)
    cases hout : optLoop enc (target_kb * 1024) min_quality max_quality none with
    | none => exact absurd hout hsome
    | some dq =>
        have := optLoop_good enc (target_kb * 1024)
          ((max_quality + 1 - min_quality).toNat) min_quality max_quality none rfl
          (by intro d q h; cases h) dq.1 dq.2 (by rw [hout])
        exact ⟨this.2, this.1⟩

/-- Sample abstract encoder used by the optimizer witnesses: quality n
encodes to n.toNat * 20 bytes, so the minimum quality 10 fits a 1 KB
budget while the maximum quality 95 does not. -/
def encSample (q : Option ℤ) : Bytes :=
  match q with
  | some n => List.replicate (n.toNat * 20) 0
  | none => []

/-- Witness for C3: a concrete encoder whose size at the minimum
quality fits the budget. -/
theorem optimize_fits_witness :
    ((encSample (some (10 : ℤ))).length : ℤ) ≤ 1 * 1024 ∧
    (((optimize Format.JPEG encSample 1 10 95).1.length : ℤ) ≤ 1 * 1024 ∧
      (optimize Format.JPEG encSample 1 10 95).1
        = encSample (some (optimize Format.JPEG encSample 1 10 95).2)) :=
  ⟨by norm_num [encSample],
    optimize_fits Format.JPEG encSample 1 10 95 (Or.inl rfl) (by norm_num)
      (by norm_num [encSample])⟩

/-- C4: for a fixed buffer and encoder, a quality-capable format and
ordered quality bounds, the quality chosen by optimize is monotone in
the size target: a strictly larger target never selects a strictly
smaller quality. -/
theorem optimize_quality_mono (fmt : Format) (enc : Option ℤ → Bytes)
    (tA tB min_quality max_quality : ℤ)
    (hfmt : fmt = Format.JPEG ∨ fmt = Format.WEBP)
    (hq : min_quality ≤ max_quality)
    (hT : tB < tA) :
    (optimize fmt enc tB min_quality max_quality).2
      ≤ (optimize fmt enc tA min_quality max_quality).2 := by
  have hcond : ¬(fmt ≠ Format.JPEG ∧ fmt ≠ Format.WEBP) := by
    rcases hfmt with h | h <;> simp [h]
  have hT1024 : tB * 1024 ≤ tA * 1024 := by omega
  unfold optimize
  rw [if_neg hcond, if_neg hcond]
  by_cases hmaxA : (((enc (some max_quality)).length : ℤ) ≤ tA * 1024)
  · simp only [if_pos hmaxA]
    by_cases hmaxB : (((enc (some max_quality)).length : ℤ) ≤ tB * 1024)
    · simp only [if_pos hmaxB]
      exact le_refl _
    · simp only [if_neg hmaxB]
      have hle := optLoop_le enc (tB * 1024) min_quality
        ((max_quality + 1 - min_quality).toNat) min_quality max_quality none rfl
      cases hout : optLoop enc (tB * 1024) min_quality max_quality none with
      | none => simpa using hq
      | some dq =>
          rw [hout] at hle
          simp only [optQuality] at hle
          simpa using by omega
  · have hmaxB : ¬(((enc (some max_quality)).length : ℤ) ≤ tB * 1024) := by omega
    simp only [if_neg hmaxA, if_neg hmaxB]
    have hmono := optLoop_mono enc (tA * 1024) (tB * 1024) min_quality hT1024
      ((max_quality + 1 - min_quality).toNat) min_quality max_quality none rfl
      (le_refl _) (by intro d q h; cases h)
    cases houtA : optLoop enc (tA * 1024) min_quality max_quality none with
    | none =>
        cases houtB : optLoop enc (tB * 1024) min_quality max_quality none with
        | none => simp
        | some dqB =>
            rw [houtA, houtB] at hmono
            simp only [optQuality] at hmono
            simpa using hmono
    | some dqA =>
        cases houtB : optLoop enc (tB * 1024) min_quality max_quality none with
        | none =>
            rw [houtA, houtB] at hmono
            simp only [optQuality] at hmono
            simpa using hmono
        | some dqB =>
            rw [houtA, houtB] at hmono
            simp only [optQuality] at hmono
            simpa using hmono

/-- Witness for C4 at a concrete encoder and targets 2 KB versus 1 KB. -/
theorem optimize_quality_mono_witness :
    (optimize Format.WEBP encSample 1 10 95).2
      ≤ (optimize Format.WEBP encSample 2 10 95).2 :=
  optimize_quality_mono Format.WEBP encSample 2 1 10 95 (Or.inr rfl) (by norm_num)
    (by norm_num)

/-! ### Auto format selection (src/nitro_img/output/optimize.py, auto_format)

A pixel buffer is modelled by its PIL mode string together with its
alpha channel samples (meaningful for the alpha-carrying modes). -/

/-- Pixel buffer view used by auto_format: PIL mode string and the
samples of the alpha channel. -/
structure PBuf where
  mode : String
  alpha : Bytes

/-- PIL Image.getextrema on a single channel: (minimum, maximum) of the
samples. -/
def chanExtrema : Bytes → ℕ × ℕ
  | [] => (0, 0)
  | x :: xs => (xs.foldl min x, xs.foldl max x)

theorem foldl_min_le (xs : List ℕ) (x : ℕ) :
    xs.foldl min x ≤ x ∧ ∀ a ∈ xs, xs.foldl min x ≤ a := by
  induction xs generalizing x with
  | nil => simp
  | cons y ys ih =>
    simp only [List.foldl_cons]
    obtain ⟨h1, h2⟩ := ih (min x y)
    refine ⟨le_trans h1 (min_le_left _ _), ?_⟩
    intro a ha
    rcases List.mem_cons.mp ha with h | h
    · subst h; exact le_trans h1 (min_le_right _ _)
    · exact h2 a h

theorem le_foldl_max (xs : List ℕ) (x : ℕ) :
    x ≤ xs.foldl max x ∧ ∀ a ∈ xs, a ≤ xs.foldl max x := by
  induction xs generalizing x with
  | nil => simp
  | cons y ys ih =>
    simp only [List.foldl_cons]
    obtain ⟨h1, h2⟩ := ih (max x y)
    refine ⟨le_trans (le_max_left _ _) h1, ?_⟩
    intro a ha
    rcases List.mem_cons.mp ha with h | h
    · subst h; exact le_trans (le_max_right _ _) h1
    · exact h2 a h

theorem le_foldl_min (xs : List ℕ) (x c : ℕ) (hx : c ≤ x) (h : ∀ a ∈ xs, c ≤ a) :
    c ≤ xs.foldl min x := by
  induction xs generalizing x with
  | nil => exact hx
  | cons y ys ih =>
    simp only [List.foldl_cons]
    refine ih (min x y) (le_min hx (h y (List.mem_cons_self _ _))) ?_
    intro a ha
    exact h a (List.mem_cons_of_mem _ ha)

theorem foldl_max_le (xs : List ℕ) (x c : ℕ) (hx : x ≤ c) (h : ∀ a ∈ xs, a ≤ c) :
    xs.foldl max x ≤ c := by
  induction xs generalizing x with
  | nil => exact hx
  | cons y ys ih =>
    simp only [List.foldl_cons]
    refine ih (max x y) (max_le hx (h y (List.mem_cons_self _ _))) ?_
    intro a ha
    exact h a (List.mem_cons_of_mem _ ha)

/-- An alpha channel with at least one sample has extrema (255, 255)
exactly when every sample is 255, i.e. the channel is fully opaque. -/
theorem chanExtrema_opaque_iff (x : ℕ) (xs : List ℕ) :
    chanExtrema (x :: xs) = (255, 255) ↔ ∀ a ∈ x :: xs, a = 255 := by
  simp only [chanExtrema, Prod.mk.injEq]
  constructor
  · rintro ⟨hmin, hmax⟩ a ha
    obtain ⟨hm1, hm2⟩ := foldl_min_le xs x
    obtain ⟨hM1, hM2⟩ := le_foldl_max xs x
    rcases List.mem_cons.mp ha with h | h
    · subst h; omega
    · have := hm2 a h
      have := hM2 a h
      omega
  · intro h
    have hx := h x (List.mem_cons_self _ _)
    have hall : ∀ a ∈ xs, a = 255 := fun a ha => h a (List.mem_cons_of_mem _ ha)
    obtain ⟨hm1, _⟩ := foldl_min_le xs x
    obtain ⟨hM1, _⟩ := le_foldl_max xs x
    have h1 := le_foldl_min xs x 255 (by omega) (fun a ha => by rw [hall a ha])
    have h2 := foldl_max_le xs x 255 (by omega) (fun a ha => by rw [hall a ha])
    omega

/-- auto_format from optimize.py.  The alpha-mode test marks RGBA, LA
and PA buffers; the fully-opaque refinement via getextrema is applied
only to RGBA-mode buffers.  Alpha-carrying buffers are encoded as PNG,
all others as whichever of WEBP and JPEG is smaller at the same
quality, ties going to WEBP. -/
def auto_format (enc : Format → Option ℤ → Bytes) (img : PBuf)
    (quality : Option ℤ) : Bytes × Format :=
  let hasAlpha := decide (img.mode = "RGBA" ∨ img.mode = "LA" ∨ img.mode = "PA")
  let hasAlpha :=
    if hasAlpha then
      if img.mode = "RGBA" then
        if chanExtrema img.alpha = (255, 255) then false else hasAlpha
      else hasAlpha
    else hasAlpha
  if hasAlpha then
    (enc Format.PNG none, Format.PNG)
  else
    let webpData := enc Format.WEBP quality
    let jpegData := enc Format.JPEG quality
    if webpData.length ≤ jpegData.length then (webpData, Format.WEBP)
    else (jpegData, Format.JPEG)

/-- Constant abstract encoder used in closed instances. -/
def encConst (_ : Format) (_ : Option ℤ) : Bytes := []

/-- Counterexample to C2 as stated: a fully opaque LA-mode buffer
(every alpha sample is 255) for which auto_format nevertheless selects
PNG, because the fully-opaque refinement is only applied to RGBA-mode
buffers. -/
theorem auto_format_fully_opaque_la_png :
    chanExtrema [255, 255] = (255, 255) ∧
    (auto_format encConst ⟨"LA", [255, 255]⟩ none).2 = Format.PNG := by
  constructor
  · rfl
  · rfl

theorem auto_format_eq (enc : Format → Option ℤ → Bytes) (img : PBuf)
    (q : Option ℤ) :
    auto_format enc img q =
      if (img.mode = "RGBA" ∨ img.mode = "LA" ∨ img.mode = "PA") ∧
          ¬(img.mode = "RGBA" ∧ chanExtrema img.alpha = (255, 255)) then
        (enc Format.PNG none, Format.PNG)
      else
        if (enc Format.WEBP q).length ≤ (enc Format.JPEG q).length then
          (enc Format.WEBP q, Format.WEBP)
        else (enc Format.JPEG q, Format.JPEG) := by
  unfold auto_format
  by_cases hm : (img.mode = "RGBA" ∨ img.mode = "LA" ∨ img.mode = "PA")
  · by_cases hr : img.mode = "RGBA"
    · by_cases hop : chanExtrema img.alpha = (255, 255)
      · simp [hm, hr, hop]
      · simp [hm, hr, hop]
    · simp [hm, hr]
  · simp [hm]

/-- C2 amended: auto_format selects PNG exactly when the buffer mode is
one of RGBA, LA, PA and the buffer is not an RGBA buffer whose alpha
channel is fully opaque (the opacity refinement is applied to RGBA-mode
buffers only); in the non-PNG case both WEBP and JPEG are encoded at
the same quality and the smaller wins, with ties going to WEBP. -/
theorem auto_format_png_iff (enc : Format → Option ℤ → Bytes) (img : PBuf)
    (q : Option ℤ) (hne : img.alpha ≠ []) :
    ((auto_format enc img q).2 = Format.PNG ↔
      ((img.mode = "RGBA" ∨ img.mode = "LA" ∨ img.mode = "PA") ∧
        ¬(img.mode = "RGBA" ∧ ∀ a ∈ img.alpha, a = 255))) ∧
    ((auto_format enc img q).2 ≠ Format.PNG →
      ((enc Format.WEBP q).length ≤ (enc Format.JPEG q).length →
          auto_format enc img q = (enc Format.WEBP q, Format.WEBP)) ∧
      ((enc Format.JPEG q).length < (enc Format.WEBP q).length →
          auto_format enc img q = (enc Format.JPEG q, Format.JPEG)) ∧
      (auto_format enc img q).1.length
        = min (enc Format.WEBP q).length (enc Format.JPEG q).length) := by
  obtain ⟨mode, alpha⟩ := img
  cases alpha with
  | nil => exact absurd rfl hne
  | cons x xs =>
    rw [auto_format_eq]
    dsimp only
    have hext := chanExtrema_opaque_iff x xs
    split_ifs with hcond hw
    · constructor
      · exact iff_of_true rfl ⟨hcond.1, fun h => hcond.2 ⟨h.1, hext.mpr h.2⟩⟩
      · intro h
        exact absurd rfl h
    · refine ⟨iff_of_false (fun h => by cases h)
        (fun hrhs => hcond ⟨hrhs.1, fun hc => hrhs.2 ⟨hc.1, hext.mp hc.2⟩⟩), ?_⟩
      intro _
      exact ⟨fun _ => rfl, fun hlt => absurd hw (not_le.mpr hlt), (min_eq_left hw).symm⟩
    · refine ⟨iff_of_false (fun h => by cases h)
        (fun hrhs => hcond ⟨hrhs.1, fun hc => hrhs.2 ⟨hc.1, hext.mp hc.2⟩⟩), ?_⟩
      intro _
      exact ⟨fun hle => absurd hle hw, fun _ => rfl, (min_eq_right (le_of_not_le hw)).symm⟩

/-- Witness for the amended C2: a partially transparent RGBA buffer
selects PNG, an opaque-mode RGB buffer selects the smaller of WEBP and
JPEG with the tie going to WEBP. -/
theorem auto_format_png_iff_witness :
    (auto_format encConst ⟨"RGBA", [255, 128]⟩ none).2 = Format.PNG ∧
    (auto_format encConst ⟨"RGB", [255]⟩ none).2 ≠ Format.PNG ∧
    auto_format encConst ⟨"RGB", [255]⟩ none = (encConst Format.WEBP none, Format.WEBP) := by
  have h1 := auto_format_png_iff encConst ⟨"RGBA", [255, 128]⟩ none (by decide)
  have h2 := auto_format_png_iff encConst ⟨"RGB", [255]⟩ none (by decide)
  have hpng : (auto_format encConst ⟨"RGBA", [255, 128]⟩ none).2 = Format.PNG :=
    h1.1.mpr ⟨Or.inl rfl, by
      rintro ⟨-, hall⟩
      exact absurd (hall 128 (by decide)) (by decide)⟩
  have hnot : (auto_format encConst ⟨"RGB", [255]⟩ none).2 ≠ Format.PNG := by
    intro hp
    rcases (h2.1.mp hp).1 with h | h | h <;> exact absurd h (by decide)
  exact ⟨hpng, hnot, (h2.2 hnot).1 (by decide)⟩

/-! ### Geometry (src/nitro_img/operations/resize.py and crop.py)

A decoded buffer is a pair of dimensions with a sample map; the
resampling kernel (PIL Image.resize / Image.thumbnail, Lanczos) is an
external collaborator and appears as an abstract function parameter.
PIL Image.crop keeps the requested box size and fills out-of-range
coordinates with empty samples. -/

/-- Decoded pixel buffer: dimensions plus a sample map. -/
structure Img where
  width : ℕ
  height : ℕ
  pix : ℕ → ℕ → ℕ

/-- PIL Image.crop on a box (left, top, right, bottom): the result has
the box dimensions; samples outside the source are empty (0). -/
def crop_box (img : Img) (l t r b : ℤ) : Img where
  width := (r - l).toNat
  height := (b - t).toNat
  pix := fun x y =>
    if 0 ≤ l + x ∧ l + x < img.width ∧ 0 ≤ t + y ∧ t + y < img.height then
      img.pix (l + x).toNat (t + y).toNat
    else 0

/-- center_crop from resize.py: offsets are Python floor division. -/
def center_crop (img : Img) (width height : ℕ) : Img :=
  let left := ((img.width : ℤ) - width).fdiv 2
  let top := ((img.height : ℤ) - height).fdiv 2
  crop_box img left top (left + width) (top + height)

theorem center_crop_width (img : Img) (w h : ℕ) :
    (center_crop img w h).width = w ∧ (center_crop img w h).height = h := by
  simp only [center_crop, crop_box, add_sub_cancel_left]
  omega

theorem center_crop_pix (img : Img) (w h : ℕ) (hw : w ≤ img.width) (hh : h ≤ img.height)
    (x y : ℕ) (hx : x < w) (hy : y < h) :
    (center_crop img w h).pix x y
      = img.pix ((img.width - w) / 2 + x) ((img.height - h) / 2 + y) := by
  simp only [center_crop, crop_box]
  rw [Int.fdiv_eq_ediv _ (by norm_num), Int.fdiv_eq_ediv _ (by norm_num)]
  rw [if_pos (by omega)]
  congr 1 <;> omega

/-- cover from resize.py.  R is the external Lanczos resampler. -/
def cover (R : Img → ℕ → ℕ → Img) (width height : ℕ) (allow_upscale : Bool)
    (img : Img) : Img :=
  let orig_w := img.width
  let orig_h := img.height
  let ratio_w : ℚ := width / orig_w
  let ratio_h : ℚ := height / orig_h
  let ratio := max ratio_w ratio_h
  if ¬allow_upscale ∧ 1 < ratio then
    let ratio2 := max ratio_w ratio_h
    if 1 < ratio2 then
      center_crop img (min width orig_w) (min height orig_h)
    else
      let new_w := max 1 (pyRound (orig_w * ratio2))
      let new_h := max 1 (pyRound (orig_h * ratio2))
      center_crop (R img new_w.toNat new_h.toNat) width height
  else
    let new_w := max 1 (pyRound (orig_w * ratio))
    let new_h := max 1 (pyRound (orig_h * ratio))
    center_crop (R img new_w.toNat new_h.toNat) width height

/-- The width cover hands to the resampler on its scaling path: the
original width scaled by max(ratio_w, ratio_h), rounded and clamped
to 1. -/
def cover_scaled_w (width height : ℕ) (img : Img) : ℕ :=
  (max 1 (pyRound (img.width *
    max ((width : ℚ) / img.width) ((height : ℚ) / img.height)))).toNat

/-- The height cover hands to the resampler on its scaling path: the
original height scaled by the same max(ratio_w, ratio_h). -/
def cover_scaled_h (width height : ℕ) (img : Img) : ℕ :=
  (max 1 (pyRound (img.height *
    max ((width : ℚ) / img.width) ((height : ℚ) / img.height)))).toNat

/-- C5: with upscaling disallowed, when covering the requested box
needs a scale factor above 1 the result is a center crop of the
unscaled buffer of per-axis dimensions min(requested, original) — its
samples are exactly the centered window of the original; otherwise
cover resizes the buffer by the scale factor max(ratio_w, ratio_h) —
the resampler receives exactly the dimensions scaled by that factor —
and center-crops the scaled buffer to exactly the requested box: the
output has the box dimensions and its samples are the centered window
of the scaled buffer. -/
theorem cover_spec (R : Img → ℕ → ℕ → Img) (w h : ℕ) (img : Img)
    (hw1 : 1 ≤ img.width) (hh1 : 1 ≤ img.height) :
    (1 < max ((w : ℚ) / img.width) ((h : ℚ) / img.height) →
      (cover R w h false img).width = min w img.width ∧
      (cover R w h false img).height = min h img.height ∧
      ∀ x y, x < min w img.width → y < min h img.height →
        (cover R w h false img).pix x y
          = img.pix ((img.width - min w img.width) / 2 + x)
              ((img.height - min h img.height) / 2 + y)) ∧
    (max ((w : ℚ) / img.width) ((h : ℚ) / img.height) ≤ 1 →
      cover R w h false img
        = center_crop (R img (cover_scaled_w w h img) (cover_scaled_h w h img)) w h ∧
      (cover R w h false img).width = w ∧ (cover R w h false img).height = h ∧
      ((∀ i a b, (R i a b).width = a ∧ (R i a b).height = b) →
        ∀ x y, x < w → y < h →
          (cover R w h false img).pix x y
            = (R img (cover_scaled_w w h img) (cover_scaled_h w h img)).pix
                ((cover_scaled_w w h img - w) / 2 + x)
                ((cover_scaled_h w h img - h) / 2 + y))) := by
  constructor
  · intro hbig
    have hcond : ¬(false = true) ∧
        1 < max ((w : ℚ) / img.width) ((h : ℚ) / img.height) := ⟨by simp, hbig⟩
    simp only [cover, if_pos hcond, if_pos hbig]
    refine ⟨(center_crop_width _ _ _).1, (center_crop_width _ _ _).2, ?_⟩
    intro x y hx hy
    exact center_crop_pix img _ _ (min_le_right _ _) (min_le_right _ _) x y hx hy
  · intro hsmall
    have hcond : ¬(¬(false = true) ∧
        1 < max ((w : ℚ) / img.width) ((h : ℚ) / img.height)) := by
      intro hc
      exact absurd hc.2 (not_lt.mpr hsmall)
    have how : (0 : ℚ) < img.width := by exact_mod_cast hw1
    have hoh : (0 : ℚ) < img.height := by exact_mod_cast hh1
    have hqw : (w : ℚ)
        ≤ (img.width : ℚ) * max ((w : ℚ) / img.width) ((h : ℚ) / img.height) := by
      have h2 : (img.width : ℚ) * ((w : ℚ) / img.width)
          ≤ (img.width : ℚ) * max ((w : ℚ) / img.width) ((h : ℚ) / img.height) :=
        mul_le_mul_of_nonneg_left (le_max_left _ _) (le_of_lt how)
      have h3 : (img.width : ℚ) * ((w : ℚ) / img.width) = (w : ℚ) := by
        field_simp
      linarith
    have hqh : (h : ℚ)
        ≤ (img.height : ℚ) * max ((w : ℚ) / img.width) ((h : ℚ) / img.height) := by
      have h2 : (img.height : ℚ) * ((h : ℚ) / img.height)
          ≤ (img.height : ℚ) * max ((w : ℚ) / img.width) ((h : ℚ) / img.height) :=
        mul_le_mul_of_nonneg_left (le_max_right _ _) (le_of_lt hoh)
      have h3 : (img.height : ℚ) * ((h : ℚ) / img.height) = (h : ℚ) := by
        field_simp
      linarith
    have hw2 : w ≤ cover_scaled_w w h img := by
      have hle := le_pyRound _ (w : ℤ) (by exact_mod_cast hqw)
      unfold cover_scaled_w
      omega
    have hh2 : h ≤ cover_scaled_h w h img := by
      have hle := le_pyRound _ (h : ℤ) (by exact_mod_cast hqh)
      unfold cover_scaled_h
      omega
    have hcov : cover R w h false img
        = center_crop (R img (cover_scaled_w w h img) (cover_scaled_h w h img)) w h := by
      simp only [cover, if_neg hcond]
      rfl
    refine ⟨hcov, ?_, ?_, ?_⟩
    · rw [hcov]
      exact (center_crop_width _ _ _).1
    · rw [hcov]
      exact (center_crop_width _ _ _).2
    · intro hR x y hx hy
      have hRw := (hR img (cover_scaled_w w h img) (cover_scaled_h w h img)).1
      have hRh := (hR img (cover_scaled_w w h img) (cover_scaled_h w h img)).2
      rw [hcov,
        center_crop_pix _ w h (by rw [hRw]; exact hw2) (by rw [hRh]; exact hh2) x y hx hy,
        hRw, hRh]

/-- Stub resampler for closed instances: keeps the sample map, sets the
requested dimensions. -/
def resampleStub (i : Img) (a b : ℕ) : Img := ⟨a, b, i.pix⟩

/-- Sample 4 by 3 buffer for closed instances. -/
def imgSample : Img := ⟨4, 3, fun x y => 10 * x + y⟩

/-- Witness for C5 on a 4 by 3 buffer: a 6 by 2 box triggers the
no-upscale fallback (center crop of the unscaled buffer at clamped
dimensions); a 3 by 2 box is covered exactly by scaling to the
max-ratio dimensions and center-cropping the scaled buffer. -/
theorem cover_spec_witness :
    ((cover resampleStub 6 2 false imgSample).width = min 6 imgSample.width ∧
      (cover resampleStub 6 2 false imgSample).height = min 2 imgSample.height ∧
      (cover resampleStub 6 2 false imgSample).pix 1 0
        = imgSample.pix ((imgSample.width - min 6 imgSample.width) / 2 + 1)
            ((imgSample.height - min 2 imgSample.height) / 2 + 0)) ∧
    (cover resampleStub 3 2 false imgSample
        = center_crop (resampleStub imgSample (cover_scaled_w 3 2 imgSample)
            (cover_scaled_h 3 2 imgSample)) 3 2 ∧
      (cover resampleStub 3 2 false imgSample).width = 3 ∧
      (cover resampleStub 3 2 false imgSample).height = 2 ∧
      (cover resampleStub 3 2 false imgSample).pix 0 0
        = (resampleStub imgSample (cover_scaled_w 3 2 imgSample)
            (cover_scaled_h 3 2 imgSample)).pix
            ((cover_scaled_w 3 2 imgSample - 3) / 2 + 0)
            ((cover_scaled_h 3 2 imgSample - 2) / 2 + 0)) := by
  constructor
  · obtain ⟨h1, h2, h3⟩ :=
      (cover_spec resampleStub 6 2 imgSample (by norm_num [imgSample])
        (by norm_num [imgSample])).1 (by norm_num [imgSample])
    exact ⟨h1, h2, h3 1 0 (by norm_num [imgSample]) (by norm_num [imgSample])⟩
  · obtain ⟨g1, g2, g3, g4⟩ :=
      (cover_spec resampleStub 3 2 imgSample (by norm_num [imgSample])
        (by norm_num [imgSample])).2 (by norm_num [imgSample])
    exact ⟨g1, g2, g3,
      g4 (fun i a b => ⟨rfl, rfl⟩) 0 0 (by norm_num) (by norm_num)⟩

/-! ### Anchor crop (src/nitro_img/operations/crop.py) -/

/-- The anchor fraction table from crop.py. -/
def ANCHOR_MAP : List (String × (ℚ × ℚ)) :=
  [("center", (1/2, 1/2)),
   ("top-left", (0, 0)),
   ("top", (1/2, 0)),
   ("top-right", (1, 0)),
   ("left", (0, 1/2)),
   ("right", (1, 1/2)),
   ("bottom-left", (0, 1)),
   ("bottom", (1/2, 1)),
   ("bottom-right", (1, 1))]

/-- Anchor resolution: dict.get with the center default. -/
def anchorOf (anchor : String) : ℚ × ℚ :=
  (ANCHOR_MAP.lookup anchor).getD (1/2, 1/2)

theorem lookup_getD_mem {α β : Type} [BEq α] (l : List (α × β)) (k : α) (d : β) :
    (l.lookup k).getD d ∈ l.map Prod.snd ∨ (l.lookup k).getD d = d := by
  induction l with
  | nil => right; rfl
  | cons p rest ih =>
    simp only [List.lookup]
    by_cases hk : k == p.1
    · rw [hk]
      left
      exact List.mem_cons_self _ _
    · rw [Bool.of_not_eq_true hk]
      rcases ih with h | h
      · left
        exact List.mem_cons_of_mem _ h
      · right
        exact h

theorem anchorOf_bounds (anchor : String) :
    0 ≤ (anchorOf anchor).1 ∧ (anchorOf anchor).1 ≤ 1 ∧
    0 ≤ (anchorOf anchor).2 ∧ (anchorOf anchor).2 ≤ 1 := by
  have hall : ∀ p ∈ ANCHOR_MAP.map Prod.snd,
      0 ≤ p.1 ∧ p.1 ≤ 1 ∧ 0 ≤ p.2 ∧ p.2 ≤ 1 := by
    intro p hp
    fin_cases hp <;> norm_num
  rcases lookup_getD_mem ANCHOR_MAP anchor (1/2, 1/2) with h | h
  · exact hall _ h
  · rw [anchorOf, h]
    norm_num

/-- crop from crop.py: crop dimensions are clamped to the buffer, the
window is positioned by the anchor fractions with Python int()
truncation, and the crop box is handed to PIL Image.crop. -/
def crop (width height : ℕ) (anchor : String) (img : Img) : Img :=
  let img_w := img.width
  let img_h := img.height
  let crop_w := min width img_w
  let crop_h := min height img_h
  let a := anchorOf anchor
  let left := pyTrunc (((img_w : ℚ) - crop_w) * a.1)
  let top := pyTrunc (((img_h : ℚ) - crop_h) * a.2)
  crop_box img left top (left + crop_w) (top + crop_h)

/-- C6: the crop dimensions are clamped to the original size — for a
request larger than the buffer on both axes the output keeps the
original dimensions — and the window is the anchor-positioned
rectangle whose left edge is the floor of (origW - cropW) times the
anchor fraction, analogously for the top edge. -/
theorem crop_spec (w h : ℕ) (anchor : String) (img : Img) :
    (crop w h anchor img).width = min w img.width ∧
    (crop w h anchor img).height = min h img.height ∧
    ∀ x y, x < min w img.width → y < min h img.height →
      (crop w h anchor img).pix x y
        = img.pix
            ((⌊((img.width : ℚ) - min w img.width) * (anchorOf anchor).1⌋).toNat + x)
            ((⌊((img.height : ℚ) - min h img.height) * (anchorOf anchor).2⌋).toNat + y) := by
  obtain ⟨hax0, hax1, hay0, hay1⟩ := anchorOf_bounds anchor
  have hwle : ((min w img.width : ℕ) : ℚ) ≤ (img.width : ℚ) :=
    Nat.cast_le.mpr (min_le_right w img.width)
  have hhle : ((min h img.height : ℕ) : ℚ) ≤ (img.height : ℚ) :=
    Nat.cast_le.mpr (min_le_right h img.height)
  have hqx : (0 : ℚ) ≤ ((img.width : ℚ) - min w img.width) * (anchorOf anchor).1 :=
    mul_nonneg (by linarith) hax0
  have hqy : (0 : ℚ) ≤ ((img.height : ℚ) - min h img.height) * (anchorOf anchor).2 :=
    mul_nonneg (by linarith) hay0
  have hbx : ((img.width : ℚ) - min w img.width) * (anchorOf anchor).1
      ≤ ((img.width : ℚ) - min w img.width) := by
    nlinarith
  have hby : ((img.height : ℚ) - min h img.height) * (anchorOf anchor).2
      ≤ ((img.height : ℚ) - min h img.height) := by
    nlinarith
  have hfx : ⌊((img.width : ℚ) - min w img.width) * (anchorOf anchor).1⌋
      ≤ (img.width : ℤ) - min w img.width := by
    have h1 := Int.floor_le_floor hbx
    rw [Int.floor_sub_nat, Int.floor_natCast] at h1
    exact h1
  have hfy : ⌊((img.height : ℚ) - min h img.height) * (anchorOf anchor).2⌋
      ≤ (img.height : ℤ) - min h img.height := by
    have h1 := Int.floor_le_floor hby
    rw [Int.floor_sub_nat, Int.floor_natCast] at h1
    exact h1
  have hfx0 : 0 ≤ ⌊((img.width : ℚ) - min w img.width) * (anchorOf anchor).1⌋ :=
    Int.floor_nonneg.mpr hqx
  have hfy0 : 0 ≤ ⌊((img.height : ℚ) - min h img.height) * (anchorOf anchor).2⌋ :=
    Int.floor_nonneg.mpr hqy
  simp only [crop, crop_box, pyTrunc_eq_floor_of_nonneg _ hqx, pyTrunc_eq_floor_of_nonneg _ hqy,
    add_sub_cancel_left]
  refine ⟨by omega, by omega, ?_⟩
  intro x y hx hy
  rw [if_pos (by omega)]
  congr 1 <;> omega

/-- Witness for C6 on a 4 by 3 buffer, an oversized 9 by 9 window and
the bottom-right anchor. -/
theorem crop_spec_witness :
    (crop 9 9 "bottom-right" imgSample).width = min 9 imgSample.width ∧
    (crop 9 9 "bottom-right" imgSample).height = min 9 imgSample.height ∧
    (crop 9 9 "bottom-right" imgSample).pix 2 1
      = imgSample.pix
          ((⌊((imgSample.width : ℚ) - min 9 imgSample.width) * (anchorOf "bottom-right").1⌋).toNat + 2)
          ((⌊((imgSample.height : ℚ) - min 9 imgSample.height) * (anchorOf "bottom-right").2⌋).toNat + 1) := by
  obtain ⟨h1, h2, h3⟩ := crop_spec 9 9 "bottom-right" imgSample
  exact ⟨h1, h2, h3 2 1 (by norm_num [imgSample]) (by norm_num [imgSample])⟩

/-! ### Fit resize and thumbnail (src/nitro_img/operations/resize.py) -/

/-- resize_fit from resize.py.  R is the external Lanczos resampler.
The target pair mirrors the three defaulting branches of the source;
the (none, none) arm is unreachable behind the early return. -/
def resize_fit (R : Img → ℕ → ℕ → Img) (width height : Option ℕ)
    (allow_upscale : Bool) (img : Img) : Img :=
  if width = none ∧ height = none then img
  else
    let orig_w := img.width
    let orig_h := img.height
    let targets : ℤ × ℤ :=
      match width, height with
      | some w, some h => ((w : ℤ), (h : ℤ))
      | some w, none => ((w : ℤ), pyRound (orig_h * ((w : ℚ) / orig_w)))
      | none, some h => (pyRound (orig_w * ((h : ℚ) / orig_h)), (h : ℤ))
      | none, none => (0, 0)
    let ratio_w : ℚ := targets.1 / orig_w
    let ratio_h : ℚ := targets.2 / orig_h
    let ratio := min ratio_w ratio_h
    if ¬allow_upscale ∧ 1 < ratio then img
    else
      R img (max 1 (pyRound (orig_w * ratio))).toNat (max 1 (pyRound (orig_h * ratio))).toNat

/-- thumbnail from resize.py: short-circuit when the buffer already
fits inside the box and upscaling is disallowed; T is the external
copy-and-thumbnail call. -/
def thumbnail (T : Img → ℕ → ℕ → Img) (width height : ℕ) (allow_upscale : Bool)
    (img : Img) : Img :=
  if ¬allow_upscale ∧ img.width ≤ width ∧ img.height ≤ height then img
  else T img width height

/-- C8: with upscaling disallowed and both targets at least the
original dimensions, resize_fit keeps the buffer dimensions — it
returns the buffer itself whenever the computed scale factor exceeds 1
— and thumbnail returns the buffer unchanged exactly when both current
dimensions already fit inside the box. -/
theorem resize_thumbnail_no_upscale (R T : Img → ℕ → ℕ → Img)
    (hR : ∀ i a b, (R i a b).width = a ∧ (R i a b).height = b)
    (w h : ℕ) (img : Img) (hw1 : 1 ≤ img.width) (hh1 : 1 ≤ img.height)
    (hw : img.width ≤ w) (hh : img.height ≤ h) :
    ((resize_fit R (some w) (some h) false img).width = img.width ∧
      (resize_fit R (some w) (some h) false img).height = img.height) ∧
    (1 < min ((w : ℚ) / img.width) ((h : ℚ) / img.height) →
      resize_fit R (some w) (some h) false img = img) ∧
    (thumbnail T w h false img = img) ∧
    (∀ w₂ h₂ : ℕ, ¬(img.width ≤ w₂ ∧ img.height ≤ h₂) →
      thumbnail T w₂ h₂ false img = T img w₂ h₂) := by
  have how : (0 : ℚ) < img.width := by exact_mod_cast hw1
  have hoh : (0 : ℚ) < img.height := by exact_mod_cast hh1
  have hrw : 1 ≤ (w : ℚ) / img.width := by
    rw [le_div_iff₀ how, one_mul]
    exact_mod_cast hw
  have hrh : 1 ≤ (h : ℚ) / img.height := by
    rw [le_div_iff₀ hoh, one_mul]
    exact_mod_cast hh
  have hmin : 1 ≤ min ((w : ℚ) / img.width) ((h : ℚ) / img.height) := le_min hrw hrh
  have hne : ¬((some w : Option ℕ) = none ∧ (some h : Option ℕ) = none) := by
    rintro ⟨hc, -⟩
    cases hc
  have hid : ∀ hbig : 1 < min ((w : ℚ) / img.width) ((h : ℚ) / img.height),
      resize_fit R (some w) (some h) false img = img := by
    intro hbig
    simp only [resize_fit, if_neg hne]
    rw [if_pos]
    push_cast
    exact ⟨by simp, hbig⟩
  refine ⟨?_, hid, ?_, ?_⟩
  · by_cases hbig : 1 < min ((w : ℚ) / img.width) ((h : ℚ) / img.height)
    · rw [hid hbig]
      exact ⟨rfl, rfl⟩
    · have hone : min ((w : ℚ) / img.width) ((h : ℚ) / img.height) = 1 := le_antisymm (not_lt.mp hbig) hmin
      simp only [resize_fit, if_neg hne]
      rw [if_neg]
      · push_cast
        rw [hone, mul_one, mul_one, pyRound_natCast, pyRound_natCast]
        have hmw : (max 1 ((img.width : ℤ))).toNat = img.width := by omega
        have hmh : (max 1 ((img.height : ℤ))).toNat = img.height := by omega
        rw [hmw, hmh]
        exact ⟨(hR img img.width img.height).1, (hR img img.width img.height).2⟩
      · push_cast
        rw [hone]
        rintro ⟨-, hlt⟩
        exact absurd hlt (lt_irrefl 1)
  · rw [thumbnail, if_pos]
    exact ⟨by simp, hw, hh⟩
  · intro w₂ h₂ hnot
    rw [thumbnail, if_neg]
    rintro ⟨-, hfit⟩
    exact hnot hfit

/-- Witness for C8 on a 4 by 3 buffer with a 9 by 9 target box. -/
theorem resize_thumbnail_no_upscale_witness :
    ((resize_fit resampleStub (some 9) (some 9) false imgSample).width = imgSample.width ∧
      (resize_fit resampleStub (some 9) (some 9) false imgSample).height = imgSample.height) ∧
    (resize_fit resampleStub (some 9) (some 9) false imgSample = imgSample) ∧
    (thumbnail resampleStub 9 9 false imgSample = imgSample) ∧
    (thumbnail resampleStub 2 9 false imgSample = resampleStub imgSample 2 9) := by
  have h := resize_thumbnail_no_upscale resampleStub resampleStub
    (fun i a b => ⟨rfl, rfl⟩) 9 9 imgSample
    (by norm_num [imgSample]) (by norm_num [imgSample])
    (by norm_num [imgSample]) (by norm_num [imgSample])
  refine ⟨h.1, ?_, h.2.2.1, ?_⟩
  · exact h.2.1 (by norm_num [imgSample])
  · exact h.2.2.2 2 9 (by norm_num [imgSample])

/-! ### Responsive set generation (src/nitro_img/responsive.py)

The result dict is an insertion-ordered association list: writing to an
existing key replaces its value in place, a new key is appended. -/

/-- Python dict write results[k] = v on an insertion-ordered
association list. -/
def pyInsert {V : Type} (d : List (ℤ × V)) (k : ℤ) (v : V) : List (ℤ × V) :=
  if k ∈ d.map Prod.fst then
    d.map (fun p => if p.1 = k then (k, v) else p)
  else d ++ [(k, v)]

/-- The per-width key computed by the generate_responsive loop: the
capping ratio followed by the rounded, clamped width. -/
def resolvedWidth (allow_upscale : Bool) (orig_w : ℕ) (width : ℤ) : ℤ :=
  let ratio : ℚ := if ¬allow_upscale ∧ (orig_w : ℤ) < width then 1 else width / orig_w
  max 1 (pyRound (orig_w * ratio))

/-- The height paired with resolvedWidth by the generate_responsive
loop (same ratio, applied to the original height). -/
def resolvedHeight (allow_upscale : Bool) (orig_w orig_h : ℕ) (width : ℤ) : ℤ :=
  let ratio : ℚ := if ¬allow_upscale ∧ (orig_w : ℤ) < width then 1 else width / orig_w
  max 1 (pyRound (orig_h * ratio))

/-- generate_responsive from responsive.py: widths are visited in
ascending order; each resolved width is resized (external resampler R),
encoded (E, format and quality fixed) and written into the dict keyed
by the resolved width. -/
def generate_responsive (R : Img → ℕ → ℕ → Img) (E : Img → Bytes)
    (widths : List ℤ) (allow_upscale : Bool) (img : Img) : List (ℤ × Bytes) :=
  (widths.mergeSort (fun a b => a ≤ b)).foldl
    (fun results width =>
      let new_w := resolvedWidth allow_upscale img.width width
      let new_h := resolvedHeight allow_upscale img.width img.height width
      pyInsert results new_w (E (R img new_w.toNat new_h.toNat)))
    []

theorem resolvedWidth_eq (orig_w : ℕ) (h1 : 1 ≤ orig_w) (w : ℤ) :
    resolvedWidth false orig_w w
      = if (orig_w : ℤ) < w then (orig_w : ℤ) else max 1 w := by
  have hz : ((orig_w : ℚ)) ≠ 0 := Nat.cast_ne_zero.mpr (by omega)
  by_cases hc : (orig_w : ℤ) < w
  · rw [if_pos hc]
    simp only [resolvedWidth,
      if_pos (show ¬(false = true) ∧ (orig_w : ℤ) < w from ⟨by simp, hc⟩),
      mul_one, pyRound_natCast]
    omega
  · rw [if_neg hc]
    have hmul : (orig_w : ℚ) * ((w : ℚ) / (orig_w : ℚ)) = ((w : ℤ) : ℚ) := by
      field_simp
    simp only [resolvedWidth,
      if_neg (show ¬(¬(false = true) ∧ (orig_w : ℤ) < w) from fun hh => hc hh.2),
      hmul, pyRound_intCast]

theorem resolvedWidth_mono (orig_w : ℕ) (h1 : 1 ≤ orig_w) (a b : ℤ) (hab : a ≤ b) :
    resolvedWidth false orig_w a ≤ resolvedWidth false orig_w b := by
  rw [resolvedWidth_eq orig_w h1, resolvedWidth_eq orig_w h1]
  split_ifs <;> omega

theorem pyInsert_keys {V : Type} (d : List (ℤ × V)) (k : ℤ) (v : V) :
    (pyInsert d k v).map Prod.fst
      = if k ∈ d.map Prod.fst then d.map Prod.fst else d.map Prod.fst ++ [k] := by
  unfold pyInsert
  split_ifs with h
  · rw [List.map_map]
    exact List.map_congr_left fun p _ => by
      by_cases hpk : p.1 = k <;> simp [hpk]
  · simp

theorem foldInsert_invariant {V : Type} (f : ℤ → ℤ) (g : ℤ → V)
    (hf : ∀ a b, a ≤ b → f a ≤ f b) :
    ∀ (l : List ℤ) (acc : List (ℤ × V)),
      List.Sorted (· ≤ ·) l →
      (acc.map Prod.fst).Nodup →
      List.Sorted (· ≤ ·) (acc.map Prod.fst) →
      (∀ k ∈ acc.map Prod.fst, ∀ w ∈ l, k ≤ f w) →
      ((l.foldl (fun d w => pyInsert d (f w) (g w)) acc).map Prod.fst).Nodup ∧
      List.Sorted (· ≤ ·)
        ((l.foldl (fun d w => pyInsert d (f w) (g w)) acc).map Prod.fst) ∧
      ∀ k, k ∈ (l.foldl (fun d w => pyInsert d (f w) (g w)) acc).map Prod.fst ↔
        (k ∈ acc.map Prod.fst ∨ ∃ w ∈ l, f w = k) := by
  intro l
  induction l with
  | nil => exact fun acc _ h1 h2 _ => ⟨h1, h2, fun k => by simp⟩
  | cons w l' ih =>
    intro acc hsort hnd hsacc hbound
    obtain ⟨hwl', hsl'⟩ := List.sorted_cons.mp hsort
    rw [List.foldl_cons]
    by_cases hmem : f w ∈ acc.map Prod.fst
    · have hkeys : (pyInsert acc (f w) (g w)).map Prod.fst = acc.map Prod.fst := by
        rw [pyInsert_keys, if_pos hmem]
      obtain ⟨r1, r2, r3⟩ := ih (pyInsert acc (f w) (g w)) hsl'
        (by rw [hkeys]; exact hnd) (by rw [hkeys]; exact hsacc)
        (by
          intro k hk w' hw'
          rw [hkeys] at hk
          exact hbound k hk w' (List.mem_cons_of_mem _ hw'))
      refine ⟨r1, r2, fun k => ?_⟩
      rw [r3 k, hkeys]
      constructor
      · rintro (h | ⟨w', hw', hfw⟩)
        · exact Or.inl h
        · exact Or.inr ⟨w', List.mem_cons_of_mem _ hw', hfw⟩
      · rintro (h | ⟨w', hw', hfw⟩)
        · exact Or.inl h
        · rcases List.mem_cons.mp hw' with rfl | hw'
          · exact Or.inl (hfw ▸ hmem)
          · exact Or.inr ⟨w', hw', hfw⟩
    · have hkeys : (pyInsert acc (f w) (g w)).map Prod.fst
          = acc.map Prod.fst ++ [f w] := by
        rw [pyInsert_keys, if_neg hmem]
      have hnd' : ((pyInsert acc (f w) (g w)).map Prod.fst).Nodup := by
        rw [hkeys, List.nodup_append]
        exact ⟨hnd, List.nodup_singleton _,
          fun a ha hb => by
            rw [List.mem_singleton] at hb
            exact hmem (hb ▸ ha)⟩
      have hs' : List.Sorted (· ≤ ·) ((pyInsert acc (f w) (g w)).map Prod.fst) := by
        rw [hkeys]
        refine List.pairwise_append.mpr ⟨hsacc, List.pairwise_singleton _ _, ?_⟩
        intro a ha b hb
        rw [List.mem_singleton] at hb
        subst hb
        exact hbound a ha w (List.mem_cons_self _ _)
      obtain ⟨r1, r2, r3⟩ := ih (pyInsert acc (f w) (g w)) hsl' hnd' hs'
        (by
          intro k hk w' hw'
          rw [hkeys, List.mem_append, List.mem_singleton] at hk
          rcases hk with hk | rfl
          · exact hbound k hk w' (List.mem_cons_of_mem _ hw')
          · exact hf w w' (hwl' w' hw'))
      refine ⟨r1, r2, fun k => ?_⟩
      rw [r3 k, hkeys, List.mem_append, List.mem_singleton]
      constructor
      · rintro ((h | rfl) | ⟨w', hw', hfw⟩)
        · exact Or.inl h
        · exact Or.inr ⟨w, List.mem_cons_self _ _, rfl⟩
        · exact Or.inr ⟨w', List.mem_cons_of_mem _ hw', hfw⟩
      · rintro (h | ⟨w', hw', hfw⟩)
        · exact Or.inl (Or.inl h)
        · rcases List.mem_cons.mp hw' with rfl | hw'
          · exact Or.inl (Or.inr hfw.symm)
          · exact Or.inr ⟨w', hw', hfw⟩

/-- C7: generate_responsive visits widths in ascending order, so the
key list of the result dict is ascending and duplicate-free; the keys
are exactly the resolved widths of the requested widths; with
upscaling disallowed a width above the original resolves to the
original width and a width at most the original resolves to itself
(clamped to 1); in particular widths 400, 800, 1600 against an
800-wide source produce exactly the keys 400 and 800. -/
theorem generate_responsive_spec (R : Img → ℕ → ℕ → Img) (E : Img → Bytes)
    (widths : List ℤ) (img : Img) (h1 : 1 ≤ img.width) :
    List.Sorted (· ≤ ·)
      ((generate_responsive R E widths false img).map Prod.fst) ∧
    ((generate_responsive R E widths false img).map Prod.fst).Nodup ∧
    (∀ k, k ∈ (generate_responsive R E widths false img).map Prod.fst ↔
      ∃ w ∈ widths, resolvedWidth false img.width w = k) ∧
    (∀ w : ℤ, resolvedWidth false img.width w
      = if (img.width : ℤ) < w then (img.width : ℤ) else max 1 w) ∧
    (img.width = 800 → widths = [400, 800, 1600] →
      (generate_responsive R E widths false img).map Prod.fst = [400, 800]) := by
  have hsorted : List.Sorted (· ≤ ·) (widths.mergeSort (fun a b => a ≤ b)) := by
    have h : List.Pairwise (fun a b : ℤ => (decide (a ≤ b)) = true)
        (widths.mergeSort (fun a b => decide (a ≤ b))) :=
      List.sorted_mergeSort
        (fun a b c ha hb => by
          simp only [decide_eq_true_eq] at ha hb ⊢
          omega)
        (fun a b => by
          rcases le_total a b with h | h <;> simp [h])
        widths
    simpa only [List.Sorted, decide_eq_true_eq] using h
  have hunfold : generate_responsive R E widths false img
      = (widths.mergeSort (fun a b => a ≤ b)).foldl
          (fun d w => pyInsert d (resolvedWidth false img.width w)
            (E (R img (resolvedWidth false img.width w).toNat
              (resolvedHeight false img.width img.height w).toNat))) [] := rfl
  obtain ⟨r1, r2, r3⟩ := foldInsert_invariant
    (fun w => resolvedWidth false img.width w)
    (fun w => E (R img (resolvedWidth false img.width w).toNat
      (resolvedHeight false img.width img.height w).toNat))
    (resolvedWidth_mono img.width h1)
    (widths.mergeSort (fun a b => a ≤ b)) [] hsorted (by simp) (by simp) (by simp)
  rw [hunfold]
  have hperm := List.mergeSort_perm widths (fun a b => a ≤ b)
  refine ⟨r2, r1, ?_, resolvedWidth_eq img.width h1, ?_⟩
  · intro k
    rw [r3 k]
    simp only [List.map_nil, List.not_mem_nil, false_or]
    constructor
    · rintro ⟨w, hw, hfw⟩
      exact ⟨w, hperm.mem_iff.mp hw, hfw⟩
    · rintro ⟨w, hw, hfw⟩
      exact ⟨w, hperm.mem_iff.mpr hw, hfw⟩
  · intro hw800 hwid
    subst hwid
    have hms : (([400, 800, 1600] : List ℤ).mergeSort (fun a b => a ≤ b))
        = [400, 800, 1600] := List.mergeSort_eq_self (by decide)
    rw [hms, hw800]
    have h400 : resolvedWidth false 800 400 = 400 := by
      rw [resolvedWidth_eq 800 (by norm_num)]
      norm_num
    have h800 : resolvedWidth false 800 800 = 800 := by
      rw [resolvedWidth_eq 800 (by norm_num)]
      norm_num
    have h1600 : resolvedWidth false 800 1600 = 800 := by
      rw [resolvedWidth_eq 800 (by norm_num)]
      norm_num
    simp only [List.foldl_cons, List.foldl_nil, h400, h800, h1600]
    simp [pyInsert]

/-- Witness for C7: the 400, 800, 1600 width set against an 800 by 600
source collapses to exactly the keys 400 and 800. -/
theorem generate_responsive_spec_witness :
    (generate_responsive resampleStub (fun _ => []) [400, 800, 1600] false
        ⟨800, 600, fun _ _ => 0⟩).map Prod.fst = [400, 800] :=
  (generate_responsive_spec resampleStub (fun _ => []) [400, 800, 1600]
    ⟨800, 600, fun _ _ => 0⟩ (by norm_num)).2.2.2.2 rfl rfl

/-! ### Buffer ownership during execution (src/nitro_img/image.py,
Image._execute, and pipeline.py, Pipeline.execute)

To state that the original buffer is never mutated, buffers live in an
explicit heap (a list of buffer values addressed by index).  A PIL
transform receives one buffer object: it may overwrite that object in
place and returns either the same object or a freshly allocated one. -/

/-- What a transform returns: its own (possibly mutated) input object,
or a freshly allocated buffer. -/
inductive TRet (β : Type) where
  | same : TRet β
  | fresh : β → TRet β

/-- A pipeline transform as seen by the heap: from the value of its
input buffer, the new value of that buffer and the returned object. -/
structure HTransform (β : Type) where
  run : β → β × TRet β

theorem getD_set_ne {β : Type} (l : List β) (i j : ℕ) (v d : β) (hne : i ≠ j) :
    (l.set i v).getD j d = l.getD j d := by
  simp [List.getD, List.getElem?_set_ne hne]

theorem getD_set_self {β : Type} (l : List β) (i : ℕ) (v d : β) (hi : i < l.length) :
    (l.set i v).getD i d = v := by
  simp [List.getD, List.getElem?_set_self, hi]

theorem getD_append_left {β : Type} (l l₂ : List β) (i : ℕ) (d : β) (hi : i < l.length) :
    (l ++ l₂).getD i d = l.getD i d := by
  simp [List.getD, List.getElem?_append_left hi]

theorem getD_append_self {β : Type} (l : List β) (w d : β) :
    (l ++ [w]).getD l.length d = w := by
  simp [List.getD, List.getElem?_append_right (le_refl l.length)]

/-- One iteration of the Pipeline.execute loop over the heap: run the
transform on the current buffer, write back the possibly mutated
value, and rebind the loop variable to the returned object. -/
def execStep {β : Type} [Inhabited β] (h : List β) (r : ℕ) (t : HTransform β) :
    List β × ℕ :=
  let out := t.run (h.getD r default)
  let h₂ := h.set r out.1
  match out.2 with
  | TRet.same => (h₂, r)
  | TRet.fresh w => (h₂ ++ [w], h₂.length)

/-- Pipeline.execute over the heap: fold the operations in order,
threading the current buffer reference. -/
def executeHeap {β : Type} [Inhabited β] (ops : List (HTransform β))
    (h : List β) (r : ℕ) : List β × ℕ :=
  ops.foldl (fun s t => execStep s.1 s.2 t) (h, r)

/-- Image._execute from image.py: allocate a copy of the original
buffer and run the pipeline from the copy. -/
def Image._execute {β : Type} [Inhabited β] (h : List β) (orig : ℕ)
    (ops : List (HTransform β)) : List β × ℕ :=
  executeHeap ops (h ++ [h.getD orig default]) h.length

theorem executeHeap_preserves {β : Type} [Inhabited β] (n : ℕ) :
    ∀ (ops : List (HTransform β)) (h : List β) (r : ℕ),
      n ≤ r → n ≤ h.length →
      (∀ i, i < n → (executeHeap ops h r).1.getD i default = h.getD i default) ∧
      n ≤ (executeHeap ops h r).2 ∧ n ≤ (executeHeap ops h r).1.length := by
  intro ops
  induction ops with
  | nil => exact fun h r hr hl => ⟨fun i _ => rfl, hr, hl⟩
  | cons t rest ih =>
    intro h r hr hl
    have hstep : executeHeap (t :: rest) h r
        = executeHeap rest (execStep h r t).1 (execStep h r t).2 := rfl
    rw [hstep]
    have hset : ∀ i, i < n → (h.set r (t.run (h.getD r default)).1).getD i default
        = h.getD i default := by
      intro i hi
      exact getD_set_ne h r i _ default (by omega)
    have hlen : (h.set r (t.run (h.getD r default)).1).length = h.length :=
      List.length_set h r _
    rcases hret : (t.run (h.getD r default)).2 with - | w
    · have hs : execStep h r t = (h.set r (t.run (h.getD r default)).1, r) := by
        dsimp only [execStep]
        rw [hret]
      rw [hs]
      obtain ⟨p1, p2, p3⟩ := ih _ r hr (by rw [hlen]; exact hl)
      exact ⟨fun i hi => by rw [p1 i hi, hset i hi], p2, p3⟩
    · have hs : execStep h r t
          = ((h.set r (t.run (h.getD r default)).1) ++ [w],
            (h.set r (t.run (h.getD r default)).1).length) := by
        dsimp only [execStep]
        rw [hret]
      rw [hs]
      obtain ⟨p1, p2, p3⟩ := ih ((h.set r (t.run (h.getD r default)).1) ++ [w])
        ((h.set r (t.run (h.getD r default)).1).length)
        (by rw [hlen]; omega)
        (by rw [List.length_append, hlen]; omega)
      refine ⟨fun i hi => ?_, p2, p3⟩
      have hilen : i < (h.set r (t.run (h.getD r default)).1).length := by
        rw [hlen]
        omega
      rw [p1 i hi, getD_append_left _ _ _ _ hilen]
      exact hset i hi

theorem executeHeap_value_det {β : Type} [Inhabited β] :
    ∀ (ops : List (HTransform β)) (hA : List β) (rA : ℕ) (hB : List β) (rB : ℕ),
      rA < hA.length → rB < hB.length →
      hA.getD rA default = hB.getD rB default →
      (executeHeap ops hA rA).1.getD (executeHeap ops hA rA).2 default
          = (executeHeap ops hB rB).1.getD (executeHeap ops hB rB).2 default ∧
        (executeHeap ops hA rA).2 < (executeHeap ops hA rA).1.length ∧
        (executeHeap ops hB rB).2 < (executeHeap ops hB rB).1.length := by
  intro ops
  induction ops with
  | nil => exact fun hA rA hB rB h1 h2 hv => ⟨hv, h1, h2⟩
  | cons t rest ih =>
    intro hA rA hB rB h1 h2 hv
    have hstepA : executeHeap (t :: rest) hA rA
        = executeHeap rest (execStep hA rA t).1 (execStep hA rA t).2 := rfl
    have hstepB : executeHeap (t :: rest) hB rB
        = executeHeap rest (execStep hB rB t).1 (execStep hB rB t).2 := rfl
    rw [hstepA, hstepB]
    rcases hret : (t.run (hA.getD rA default)).2 with - | w
    · have hsA : execStep hA rA t = (hA.set rA (t.run (hA.getD rA default)).1, rA) := by
        dsimp only [execStep]
        rw [hret]
      have hsB : execStep hB rB t = (hB.set rB (t.run (hB.getD rB default)).1, rB) := by
        dsimp only [execStep]
        rw [← hv, hret]
      rw [hsA, hsB]
      refine ih _ _ _ _ (by simpa using h1) (by simpa using h2) ?_
      rw [getD_set_self _ _ _ _ h1, getD_set_self _ _ _ _ h2, hv]
    · have hsA : execStep hA rA t
          = ((hA.set rA (t.run (hA.getD rA default)).1) ++ [w],
            (hA.set rA (t.run (hA.getD rA default)).1).length) := by
        dsimp only [execStep]
        rw [hret]
      have hsB : execStep hB rB t
          = ((hB.set rB (t.run (hB.getD rB default)).1) ++ [w],
            (hB.set rB (t.run (hB.getD rB default)).1).length) := by
        dsimp only [execStep]
        rw [← hv, hret]
      rw [hsA, hsB]
      refine ih _ _ _ _ (by simp) (by simp) ?_
      rw [getD_append_self, getD_append_self]

/-- C9: Image._execute runs the pipeline on a fresh copy of the
original buffer, so the original heap cell is unchanged by an output
call — whatever mutations the queued transforms perform — and a second
output call on the resulting heap reads the same original value and
produces a result buffer equal to the first one: execution is
repeatable and does not mutate the Image. -/
theorem image_execute_no_mutation {β : Type} [Inhabited β]
    (h : List β) (orig : ℕ) (ops : List (HTransform β))
    (horig : orig < h.length) :
    (Image._execute h orig ops).1.getD orig default = h.getD orig default ∧
    (Image._execute (Image._execute h orig ops).1 orig ops).1.getD
        (Image._execute (Image._execute h orig ops).1 orig ops).2 default
      = (Image._execute h orig ops).1.getD (Image._execute h orig ops).2 default := by
  have hcopy : ∀ (hh : List β),
      (hh ++ [hh.getD orig default]).getD hh.length default = hh.getD orig default := by
    intro hh
    exact getD_append_self hh _ default
  have hpres := executeHeap_preserves (n := orig + 1) ops
    (h ++ [h.getD orig default]) h.length (by omega)
    (by rw [List.length_append]; omega)
  have hfirst : (Image._execute h orig ops).1.getD orig default
      = h.getD orig default := by
    have := hpres.1 orig (by omega)
    rw [Image._execute, this]
    exact getD_append_left _ _ _ _ horig
  refine ⟨hfirst, ?_⟩
  have hdet := executeHeap_value_det ops
    ((Image._execute h orig ops).1 ++ [(Image._execute h orig ops).1.getD orig default])
    (Image._execute h orig ops).1.length
    (h ++ [h.getD orig default]) h.length
    (by simp)
    (by simp)
    (by rw [hcopy, hcopy, hfirst])
  exact hdet.1

/-- Witness for C9: a two-operation pipeline that mutates its buffers
over a one-cell heap. -/
theorem image_execute_no_mutation_witness :
    (Image._execute [7] 0 [⟨fun v => (v + 1, TRet.fresh (v * 2))⟩,
        ⟨fun v => (v + 5, TRet.same)⟩]).1.getD 0 default = ([7] : List ℕ).getD 0 default ∧
    (Image._execute (Image._execute [7] 0 [⟨fun v => (v + 1, TRet.fresh (v * 2))⟩,
          ⟨fun v => (v + 5, TRet.same)⟩]).1 0 [⟨fun v => (v + 1, TRet.fresh (v * 2))⟩,
          ⟨fun v => (v + 5, TRet.same)⟩]).1.getD
        (Image._execute (Image._execute [7] 0 [⟨fun v => (v + 1, TRet.fresh (v * 2))⟩,
          ⟨fun v => (v + 5, TRet.same)⟩]).1 0 [⟨fun v => (v + 1, TRet.fresh (v * 2))⟩,
          ⟨fun v => (v + 5, TRet.same)⟩]).2 default
      = (Image._execute [7] 0 [⟨fun v => (v + 1, TRet.fresh (v * 2))⟩,
          ⟨fun v => (v + 5, TRet.same)⟩]).1.getD
          (Image._execute [7] 0 [⟨fun v => (v + 1, TRet.fresh (v * 2))⟩,
            ⟨fun v => (v + 5, TRet.same)⟩]).2 default :=
  image_execute_no_mutation [7] 0
    [⟨fun v => (v + 1, TRet.fresh (v * 2))⟩, ⟨fun v => (v + 5, TRet.same)⟩]
    (by norm_num)

/-! ### Dominant color (src/nitro_img/placeholder.py)

dominant_color first downsamples with the external resampler
(Image.thumbnail) and forces RGB mode; the claims quantify over the
sampled RGB pixel list, so the function is embedded from that point. -/

/-- The per-pixel bucket of dominant_color: clear the low 4 bits of
each channel. -/
def quantize (p : ℕ × ℕ × ℕ) : ℕ × ℕ × ℕ :=
  ((p.1 >>> 4) <<< 4, (p.2.1 >>> 4) <<< 4, (p.2.2 >>> 4) <<< 4)

/-- Keys of a Python Counter in first-insertion order. -/
def pyDedup {α : Type} [DecidableEq α] (l : List α) : List α :=
  l.foldl (fun acc x => if x ∈ acc then acc else acc ++ [x]) []

/-- Counter.most_common(1)[0][0]: the element with the largest count,
the earliest-inserted key winning ties (most_common sorts the counter
items stably by descending count). -/
def mostCommon (l : List (ℕ × ℕ × ℕ)) : ℕ × ℕ × ℕ :=
  match pyDedup l with
  | [] => (0, 0, 0)
  | k :: ks => ks.foldl (fun best k₂ => if l.count best < l.count k₂ then k₂ else best) k

/-- One lowercase hex digit. -/
def hexChar (n : ℕ) : Char :=
  "0123456789abcdef".toList.getD n 'x'

/-- Two-digit lowercase hex of a byte, as Python 02x formatting. -/
def toHex2 (n : ℕ) : String :=
  String.mk [hexChar (n / 16 % 16), hexChar (n % 16)]

/-- dominant_color from placeholder.py, over the sampled RGB pixels:
quantize every pixel, count bucket frequencies, format the most common
bucket as a hex color string. -/
def dominant_color (pixels : List (ℕ × ℕ × ℕ)) : String :=
  let quantized := pixels.map quantize
  let most := mostCommon quantized
  "#" ++ toHex2 most.1 ++ toHex2 most.2.1 ++ toHex2 most.2.2

theorem pyDedup_loop_mem {α : Type} [DecidableEq α] :
    ∀ (l acc : List α) (x : α),
      x ∈ l.foldl (fun a y => if y ∈ a then a else a ++ [y]) acc ↔ x ∈ acc ∨ x ∈ l := by
  intro l
  induction l with
  | nil => simp
  | cons y l' ih =>
    intro acc x
    rw [List.foldl_cons]
    by_cases hy : y ∈ acc
    · rw [if_pos hy, ih]
      constructor
      · rintro (h | h)
        · exact Or.inl h
        · exact Or.inr (List.mem_cons_of_mem _ h)
      · rintro (h | h)
        · exact Or.inl h
        · rcases List.mem_cons.mp h with rfl | h
          · exact Or.inl hy
          · exact Or.inr h
    · rw [if_neg hy, ih]
      simp only [List.mem_append, List.mem_singleton, List.mem_cons]
      tauto

theorem pyDedup_mem {α : Type} [DecidableEq α] (l : List α) (x : α) :
    x ∈ pyDedup l ↔ x ∈ l := by
  rw [pyDedup, pyDedup_loop_mem]
  simp

theorem foldl_argmax_mem {α : Type} (c : α → ℕ) :
    ∀ (ks : List α) (k : α),
      ks.foldl (fun best k₂ => if c best < c k₂ then k₂ else best) k ∈ k :: ks := by
  intro ks
  induction ks with
  | nil =>
    intro k
    simp
  | cons k₂ ks' ih =>
    intro k
    rw [List.foldl_cons]
    rcases List.mem_cons.mp (ih (if c k < c k₂ then k₂ else k)) with h | h
    · rw [h]
      by_cases hc : c k < c k₂
      · rw [if_pos hc]
        exact List.mem_cons_of_mem _ (List.mem_cons_self _ _)
      · rw [if_neg hc]
        exact List.mem_cons_self _ _
    · exact List.mem_cons_of_mem _ (List.mem_cons_of_mem _ h)

theorem foldl_argmax_le {α : Type} (c : α → ℕ) :
    ∀ (ks : List α) (k b : α), b ∈ k :: ks →
      c b ≤ c (ks.foldl (fun best k₂ => if c best < c k₂ then k₂ else best) k) := by
  intro ks
  induction ks with
  | nil =>
    intro k b hb
    rcases List.mem_cons.mp hb with rfl | hb
    · exact le_refl _
    · cases hb
  | cons k₂ ks' ih =>
    intro k b hb
    rw [List.foldl_cons]
    have hk : c k ≤ c (if c k < c k₂ then k₂ else k) := by
      by_cases hc : c k < c k₂ <;> simp [hc] <;> omega
    have hk₂ : c k₂ ≤ c (if c k < c k₂ then k₂ else k) := by
      by_cases hc : c k < c k₂ <;> simp [hc] <;> omega
    rcases List.mem_cons.mp hb with rfl | hb
    · exact le_trans hk (ih _ _ (List.mem_cons_self _ _))
    · rcases List.mem_cons.mp hb with rfl | hb
      · exact le_trans hk₂ (ih _ _ (List.mem_cons_self _ _))
      · exact ih _ b (List.mem_cons_of_mem _ hb)

theorem mostCommon_mem (l : List (ℕ × ℕ × ℕ)) (hne : l ≠ []) : mostCommon l ∈ l := by
  cases hd : pyDedup l with
  | nil =>
    obtain ⟨x, hx⟩ := List.exists_mem_of_ne_nil l hne
    have hmem := (pyDedup_mem l x).mpr hx
    rw [hd] at hmem
    exact absurd hmem (List.not_mem_nil x)
  | cons k ks =>
    have hm : mostCommon l
        = ks.foldl (fun best k₂ => if l.count best < l.count k₂ then k₂ else best) k := by
      rw [mostCommon, hd]
    have hmem := foldl_argmax_mem (fun a => l.count a) ks k
    rw [← hm] at hmem
    rw [← hd] at hmem
    exact (pyDedup_mem l _).mp hmem

theorem mostCommon_maximal (l : List (ℕ × ℕ × ℕ)) (b : ℕ × ℕ × ℕ) (hb : b ∈ l) :
    l.count b ≤ l.count (mostCommon l) := by
  cases hd : pyDedup l with
  | nil =>
    have hmem := (pyDedup_mem l b).mpr hb
    rw [hd] at hmem
    exact absurd hmem (List.not_mem_nil b)
  | cons k ks =>
    have hm : mostCommon l
        = ks.foldl (fun best k₂ => if l.count best < l.count k₂ then k₂ else best) k := by
      rw [mostCommon, hd]
    have hbd : b ∈ k :: ks := by
      rw [← hd]
      exact (pyDedup_mem l b).mpr hb
    rw [hm]
    exact foldl_argmax_le (fun a => l.count a) ks k b hbd

theorem pyDedup_loop_const {α : Type} [DecidableEq α] (a : α) :
    ∀ (l acc : List α), (∀ x ∈ l, x = a) → a ∈ acc →
      l.foldl (fun d y => if y ∈ d then d else d ++ [y]) acc = acc := by
  intro l
  induction l with
  | nil => exact fun acc _ _ => rfl
  | cons y l' ih =>
    intro acc hall ha
    rw [List.foldl_cons, if_pos (by rw [hall y (List.mem_cons_self _ _)]; exact ha)]
    exact ih acc (fun x hx => hall x (List.mem_cons_of_mem _ hx)) ha

/-- C10: the bucket dominant_color selects is one of the sampled
buckets, has maximal frequency among them and has the low 4 bits of
every channel cleared; the result is that bucket formatted as a hex
string; a uniform (255, 0, 0) image yields the string of its quantized
bucket (240, 0, 0), namely hash f00000. -/
theorem dominant_color_spec (pixels : List (ℕ × ℕ × ℕ)) (hne : pixels ≠ []) :
    mostCommon (pixels.map quantize) ∈ pixels.map quantize ∧
    (∀ b ∈ pixels.map quantize,
      (pixels.map quantize).count b
        ≤ (pixels.map quantize).count (mostCommon (pixels.map quantize))) ∧
    (mostCommon (pixels.map quantize)).1 % 16 = 0 ∧
    (mostCommon (pixels.map quantize)).2.1 % 16 = 0 ∧
    (mostCommon (pixels.map quantize)).2.2 % 16 = 0 ∧
    dominant_color pixels
      = "#" ++ toHex2 (mostCommon (pixels.map quantize)).1
          ++ toHex2 (mostCommon (pixels.map quantize)).2.1
          ++ toHex2 (mostCommon (pixels.map quantize)).2.2 ∧
    ((∀ p ∈ pixels, p = (255, 0, 0)) → dominant_color pixels = "#f00000") := by
  have hmapne : pixels.map quantize ≠ [] := by
    obtain ⟨p0, rest, rfl⟩ := List.exists_cons_of_ne_nil hne
    exact List.cons_ne_nil _ _
  have hmem := mostCommon_mem (pixels.map quantize) hmapne
  obtain ⟨p, hp, hq⟩ := List.mem_map.mp hmem
  refine ⟨hmem, fun b hb => mostCommon_maximal _ b hb, ?_, ?_, ?_, rfl, ?_⟩
  · rw [← hq]
    simp [quantize, Nat.shiftLeft_eq]
  · rw [← hq]
    simp [quantize, Nat.shiftLeft_eq]
  · rw [← hq]
    simp [quantize, Nat.shiftLeft_eq]
  · intro hall
    obtain ⟨p0, rest, rfl⟩ := List.exists_cons_of_ne_nil hne
    have hallq : ∀ x ∈ (p0 :: rest).map quantize, x = (240, 0, 0) := by
      intro x hx
      obtain ⟨p', hp', hq'⟩ := List.mem_map.mp hx
      rw [← hq', hall p' hp']
      decide
    have hdedup : pyDedup ((p0 :: rest).map quantize) = [(240, 0, 0)] := by
      rw [show (p0 :: rest).map quantize = quantize p0 :: rest.map quantize from rfl,
        pyDedup, List.foldl_cons]
      rw [show quantize p0 = (240, 0, 0) from by
        rw [hall p0 (List.mem_cons_self _ _)]
        decide]
      rw [if_neg (List.not_mem_nil _), List.nil_append]
      exact pyDedup_loop_const (240, 0, 0) (rest.map quantize) [(240, 0, 0)]
        (fun x hx => hallq x (List.mem_cons_of_mem _ hx)) (List.mem_singleton.mpr rfl)
    have hmost : mostCommon ((p0 :: rest).map quantize) = (240, 0, 0) := by
      rw [mostCommon, hdedup]
      rfl
    show dominant_color (p0 :: rest) = "#f00000"
    dsimp only [dominant_color]
    rw [hmost]
    rfl

/-- Witness for C10: two red pixels and one dark pixel; the dominant
color of the uniform red list is the hex string of the 240 bucket. -/
theorem dominant_color_spec_witness :
    dominant_color [(255, 0, 0), (255, 0, 0)] = "#f00000" ∧
    ([(255, 0, 0), (255, 0, 0)].map quantize).count (240, 0, 0)
      ≤ ([(255, 0, 0), (255, 0, 0)].map quantize).count
          (mostCommon ([(255, 0, 0), (255, 0, 0)].map quantize)) :=
  ⟨(dominant_color_spec [(255, 0, 0), (255, 0, 0)] (by decide)).2.2.2.2.2.2 (by decide),
    (dominant_color_spec [(255, 0, 0), (255, 0, 0)] (by decide)).2.1 (240, 0, 0) (by decide)⟩

end NitroImg
